import Mathlib

/-!
Verification development for the WhatsApp crawler backend
(`backend/common.js`, `backend/messageUtils.js`, `backend/participants.js`,
`backend/enrichment.js`, `backend/crawl-service.js`).

The JavaScript code is shallowly embedded: JS strings become `String`,
absent/`null`/`undefined` string-valued fields become `Option String`
(with JS truthiness: the empty string is falsy), numeric epoch timestamps
become an explicit JS-number model `TSVal`, stateful loops become
structural recursion, and thrown errors become `Except`/explicit result
constructors.  Every definition mirrors the corresponding source function;
its doc comment names the source function it embeds.
-/

namespace WC

/-- JS truthiness of a string value (the empty string is falsy). -/
def truthy (s : String) : Bool := decide (s ≠ "")

/-- JS truthiness of a possibly-absent string value (null, undefined and the
empty string are falsy). -/
def truthyOpt : Option String → Bool
  | none => false
  | some s => truthy s

/-- JS expression of shape a OR b (returning the first truthy operand) on
possibly-absent string values. -/
def jsOrOpt (a b : Option String) : Option String :=
  if truthyOpt a then a else b

/-- JS expression of shape a OR d where d is a string default. -/
def jsOrStr (a : Option String) (d : String) : String :=
  match a with
  | some s => if truthy s then s else d
  | none => d

/-- ECMAScript line terminators, which the regex dot does not match. -/
def isLineTerm (c : Char) : Bool :=
  c == '\n' || c == '\r' || c == '\u2028' || c == '\u2029'

/-- Character-list core of the JS replace of regex at-dot-star by the empty
string: delete from the first at-sign up to (not including) the first line
terminator after it, or to the end when there is none. -/
def replAtAux : List Char → List Char
  | [] => []
  | c :: cs =>
      if c == '@' then cs.dropWhile (fun d => !isLineTerm d)
      else c :: replAtAux cs

/-- The JS idiom replacing regex at-dot-star by the empty string, used
throughout the backend to strip an id's domain suffix
(in parseMessageId, getReadableSenderId, stripLid and reaction senders). -/
def replaceAtDotStar (s : String) : String := String.mk (replAtAux s.data)

/-- Does the character list start with the given pattern? -/
def charsStart : List Char → List Char → Bool
  | _, [] => true
  | [], _ :: _ => false
  | a :: as, b :: bs => a == b && charsStart as bs

/-- Does the character list contain the pattern as a contiguous run? -/
def charsContain (pat : List Char) : List Char → Bool
  | [] => charsStart [] pat
  | c :: t => charsStart (c :: t) pat || charsContain pat t

/-- JS substring containment test on strings. -/
def strIncludes (hay pat : String) : Bool := charsContain pat.data hay.data

/-- common.js isLid on an actual string: substring test for at-sign lid. -/
def isLidStr (s : String) : Bool := strIncludes s "@lid"

/-- common.js isLid: false for a non-string input (modelled as none). -/
def isLid : Option String → Bool
  | none => false
  | some s => isLidStr s

/-- JS regex digit class. -/
def isDigitCh (c : Char) : Bool := '0' ≤ c && c ≤ '9'

/-- JS regex whitespace class. -/
def isJsSpace (c : Char) : Bool :=
  c == ' ' || c == '\t' || c == '\n' || c == '\u000B' || c == '\u000C' ||
  c == '\r' || c == '\u00A0' || c == '\u1680' ||
  ('\u2000' ≤ c && c ≤ '\u200A') ||
  c == '\u2028' || c == '\u2029' || c == '\u202F' || c == '\u205F' ||
  c == '\u3000' || c == '\uFEFF'

/-- JS regex class of dash-or-whitespace used as a phone-number separator. -/
def isPhoneSep (c : Char) : Bool := c == '-' || isJsSpace c

/-- Consume exactly n digits from the front; return the rest, or none. -/
def eatDigits : Nat → List Char → Option (List Char)
  | 0, l => some l
  | _ + 1, [] => none
  | n + 1, c :: cs => if isDigitCh c then eatDigits n cs else none

/-- Consume an optional separator.  The regex atom after each optional
separator is a digit, and a separator is never a digit, so the greedy
optional is deterministic: consume the separator exactly when present. -/
def eatOptSep : List Char → List Char
  | [] => []
  | c :: cs => if isPhoneSep c then cs else c :: cs

/-- Match, at the front of the list, of the first phone alternative:
optional plus sign, 972, then 2, 3 and 4 digits with optional separators. -/
def phoneAlt1 (l : List Char) : Bool :=
  let l1 := match l with
    | '+' :: rest => rest
    | other => other
  if charsStart l1 ['9', '7', '2'] then
    let l2 := eatOptSep (l1.drop 3)
    match eatDigits 2 l2 with
    | none => false
    | some l3 =>
        match eatDigits 3 (eatOptSep l3) with
        | none => false
        | some l4 => (eatDigits 4 (eatOptSep l4)).isSome
  else false

/-- Match, at the front of the list, of the second phone alternative:
972 followed by exactly 9 digits. -/
def phoneAlt2 (l : List Char) : Bool :=
  charsStart l ['9', '7', '2'] && (eatDigits 9 (l.drop 3)).isSome

/-- Unanchored regex search: does either alternative match at some position? -/
def phoneSearch : List Char → Bool
  | [] => phoneAlt1 [] || phoneAlt2 []
  | c :: t => phoneAlt1 (c :: t) || phoneAlt2 (c :: t) || phoneSearch t

/-- common.js isPhoneNumber on an actual string: unanchored test of the
two-alternative regional phone regex. -/
def isPhoneNumberStr (s : String) : Bool := phoneSearch s.data

/-- common.js isPhoneNumber: false for a non-string input (modelled as none). -/
def isPhoneNumber : Option String → Bool
  | none => false
  | some s => isPhoneNumberStr s

/-- common.js normalizePhoneNumber on a string: strip non-digits; return the
original input unless the digit-only form starts with 972. -/
def normalizePhoneNumber (s : String) : String :=
  let normalized := String.mk (s.data.filter isDigitCh)
  if charsStart normalized.data ['9', '7', '2'] then normalized else s

/-! Model of the JS split of a string on a single-character separator
(split never receives a multi-character separator in this code base). -/

/-- Accumulating core of the JS string split on one separator character. -/
def splitChAux (sep : Char) : List Char → List Char → List (List Char)
  | [], cur => [cur.reverse]
  | c :: cs, cur =>
      if c == sep then cur.reverse :: splitChAux sep cs []
      else splitChAux sep cs (c :: cur)

/-- JS split of a string on a single separator character. -/
def jsSplit (s : String) (sep : Char) : List String :=
  (splitChAux sep s.data []).map String.mk

/-! Model of parseMessageId from messageUtils.js. -/

/-- A JS value expected to be a string: an actual string, or anything else. -/
inductive JsStrOr where
  | str (s : String)
  | nonString
deriving DecidableEq

/-- Result shape of parseMessageId: an invalid marker carrying a reason and
the raw input, or the valid triple of chat id, message hash and sender id. -/
inductive ParseIdRes where
  | invalid (reason : String) (raw : JsStrOr)
  | valid (chatId msgHashId senderId : String)
deriving DecidableEq

/-- messageUtils.js parseMessageId: non-strings are rejected with a stable
reason, the string is split on underscore, exactly 4 parts are required
(any other arity is rejected with a stable reason), and the sender part's
domain suffix is stripped with the at-dot-star replace. -/
def parseMessageId : JsStrOr → ParseIdRes
  | .nonString => .invalid "Message ID is not a string" .nonString
  | .str s =>
      match jsSplit s '_' with
      | [_, chatId, msgHashId, senderIdRaw] =>
          .valid chatId msgHashId (replaceAtDotStar senderIdRaw)
      | _ => .invalid "Invalid message ID format" (.str s)

/-! Model of mergeParticipants from participants.js. -/

/-- A partial identity record as produced by parseParticipant: optional id,
phone, name, and the unresolved-token field. -/
structure PartIdent where
  id : Option String := none
  phone : Option String := none
  name : Option String := none
  unknown : Option String := none
deriving DecidableEq

/-- Result shape of mergeParticipants: the three primary fields plus the
conditionally-set alt-prefixed fields. -/
structure MergedIdent where
  id : Option String := none
  altId : Option String := none
  phone : Option String := none
  altPhone : Option String := none
  name : Option String := none
  altName : Option String := none
deriving DecidableEq

/-- JS test that both sides are truthy and differ, for one field. -/
def bothDiffer (x y : Option String) : Bool :=
  truthyOpt x && truthyOpt y && decide (x ≠ y)

/-- participants.js mergeParticipants: per field, if both sides are truthy
and differ, keep the first record's value under the primary key and the
second's under the alt key; otherwise the JS OR of the two; finally name
falls back to either side's unresolved token when still falsy. -/
def mergeParticipants (a b : PartIdent) : MergedIdent :=
  let id0 := if bothDiffer a.id b.id then a.id else jsOrOpt a.id b.id
  let altId0 : Option String := if bothDiffer a.id b.id then b.id else none
  let phone0 := if bothDiffer a.phone b.phone then a.phone else jsOrOpt a.phone b.phone
  let altPhone0 : Option String := if bothDiffer a.phone b.phone then b.phone else none
  let name0 := if bothDiffer a.name b.name then a.name else jsOrOpt a.name b.name
  let altName0 : Option String := if bothDiffer a.name b.name then b.name else none
  let name1 := if truthyOpt a.unknown && !truthyOpt name0 then a.unknown else name0
  let name2 := if truthyOpt b.unknown && !truthyOpt name1 then b.unknown else name1
  { id := id0, altId := altId0, phone := phone0, altPhone := altPhone0,
    name := name2, altName := altName0 }

/-! Model of JS numbers used as message timestamps, and of the stable
in-place array sort with the comparator subtracting two timestamps.
ECMAScript guarantees Array sort stability; the comparator result NaN is
treated as zero (SortCompare), i.e. as a tie. -/

/-- A JS value sitting in a timestamp field: a finite number (timestamps are
integral), the number NaN, or a non-number value together with its ToNumber
coercion (`none` meaning the coercion is NaN). -/
inductive TSVal where
  | num (n : Int)
  | nan
  | other (coerce : Option Int)
deriving DecidableEq

/-- ToNumber of a timestamp value; `none` is NaN. -/
def toNumTS : TSVal → Option Int
  | .num n => some n
  | .nan => none
  | .other c => c

/-- SortCompare for the comparator a.timestamp - b.timestamp: the earlier
element keeps its place when the difference is non-positive or NaN
(ECMAScript maps a NaN comparator result to zero). -/
def tsKeep (a b : TSVal) : Bool :=
  match toNumTS a, toNumTS b with
  | some x, some y => decide (x ≤ y)
  | _, _ => true

/-- The comparator lifted along a timestamp projection. -/
def tsLe (ts : α → TSVal) (a b : α) : Bool := tsKeep (ts a) (ts b)

/-- Insert an element into the already-processed prefix: it goes after every
earlier element the comparator keeps before it. -/
def insertStable (le : α → α → Bool) (x : α) : List α → List α
  | [] => [x]
  | y :: ys => if le y x then y :: insertStable le x ys else x :: y :: ys

/-- Left-to-right stable sorting pass over the remaining elements. -/
def sortStableAux (le : α → α → Bool) : List α → List α → List α
  | acc, [] => acc
  | acc, x :: xs => sortStableAux le (insertStable le x acc) xs

/-- A stable sort: the model of the ECMAScript stable in-place Array sort. -/
def sortStable (le : α → α → Bool) (l : List α) : List α := sortStableAux le [] l

/-- Order constraint between two elements: whenever both timestamps are
actual numbers, they are non-decreasing. -/
def NumLE (ts : α → TSVal) (a b : α) : Prop :=
  ∀ x y, toNumTS (ts a) = some x → toNumTS (ts b) = some y → x ≤ y

/-- All numeric-timestamp elements appear in non-decreasing order. -/
def NumSorted (ts : α → TSVal) (l : List α) : Prop := l.Pairwise (NumLE ts)

/-! Model of the enrichment pipeline: enrichment.js together with the
sender probes of messageUtils.js. -/

/-- A roster member as projected by participants.js filterParticipants. -/
structure Participant where
  id : Option String := none
  name : Option String := none
  shortName : Option String := none
  pushname : Option String := none
  phone : Option String := none
deriving DecidableEq

/-- The duck-typed sender field of a raw message: absent or null, a plain
string, or an object with the four probed name fields. -/
inductive SenderVal where
  | absent
  | str (s : String)
  | obj (id formattedName pushname name : Option String)
deriving DecidableEq

/-- The quoted message referenced by a reply (fields read by
extractMessageBody). -/
structure QuotedMsg where
  isMedia : Bool := false
  body : Option String := none
  content : Option String := none
deriving DecidableEq

/-- One sender entry inside a reaction group. -/
structure RSender where
  senderUserJid : String
deriving DecidableEq

/-- One raw reaction group. -/
structure Reaction where
  aggregateEmoji : String
  senders : List RSender
deriving DecidableEq

/-- A raw message as consumed by the enrichment pipeline.  String-valued
fields that may be absent, null or non-string are Option String. -/
structure Msg where
  id : JsStrOr
  timestamp : TSVal
  author : Option String := none
  sender : SenderVal := .absent
  isMedia : Bool := false
  body : Option String := none
  content : Option String := none
  quotedMsg : Option QuotedMsg := none
  quotedParticipant : Option String := none
  quotedStanzaID : Option String := none
  reactions : Option (List Reaction) := none
deriving DecidableEq

/-- Push a probed object field when it is truthy. -/
def optCand (o : Option String) : List String :=
  match o with
  | some s => if truthy s then [s] else []
  | none => []

/-- The ordered candidate list built identically by getPhoneNumber and
getLid in messageUtils.js: the author string when the author is a string
(even when empty, the JS check is only typeof), then the sender: a truthy
sender string, or the truthy id, formattedName, pushname and name fields
of a sender object, in that order. -/
def senderCandidates (m : Msg) : List String :=
  (match m.author with
   | some a => [a]
   | none => []) ++
  (match m.sender with
   | .absent => []
   | .str s => if truthy s then [s] else []
   | .obj i fn pn nm => optCand i ++ optCand fn ++ optCand pn ++ optCand nm)

/-- messageUtils.js getPhoneNumber: the first phone-shaped candidate,
normalized; null when none matches. -/
def getPhoneNumber (m : Msg) : Option String :=
  ((senderCandidates m).find? (fun v => isPhoneNumberStr v)).map normalizePhoneNumber

/-- messageUtils.js getLid: the first linked-id-shaped candidate; null when
none matches. -/
def getLid (m : Msg) : Option String :=
  (senderCandidates m).find? (fun v => isLidStr v)

/-- Result of sender resolution: a roster member or the literal string
constant Unknown Member. -/
inductive SenderRes where
  | member (p : Participant)
  | unknownMember
deriving DecidableEq

/-- enrichment.js resolveSender: look the phone up in the roster, else the
linked id, else the Unknown Member sentinel; a failed roster lookup also
yields the sentinel. -/
def resolveSender (m : Msg) (members : List Participant) : SenderRes :=
  let phone := getPhoneNumber m
  if truthyOpt phone then
    match members.find? (fun p => p.phone == phone) with
    | some p => .member p
    | none => .unknownMember
  else
    let lid := getLid m
    if truthyOpt lid then
      match members.find? (fun p => p.id == lid) with
      | some p => .member p
      | none => .unknownMember
    else .unknownMember

/-- enrichment.js extractMessageBody: media placeholder, else body, else
content, else the no-text literal. -/
def extractMessageBody (isMedia : Bool) (body content : Option String) : String :=
  if isMedia then "<Media Message (Truncated)>"
  else jsOrStr body (jsOrStr content "[No text]")

/-- The author of a reply reference: a resolved roster member or the raw
quoted-participant token. -/
inductive ReplyAuthor where
  | member (p : Participant)
  | raw (s : String)
deriving DecidableEq

/-- A resolved reply reference. -/
structure ReplyRef where
  ref : String
  author : ReplyAuthor
  body : String
deriving DecidableEq

/-- enrichment.js buildReplyTo: null unless both the quoted message and the
quoted participant are truthy; the quoted participant is resolved like a
sender but falls back to the raw token. -/
def buildReplyTo (m : Msg) (members : List Participant) : Option ReplyRef :=
  match m.quotedMsg with
  | none => none
  | some q =>
      match m.quotedParticipant with
      | none => none
      | some quoted =>
          if !truthy quoted then none
          else
            let author : ReplyAuthor :=
              if isPhoneNumberStr quoted then
                match members.find? (fun p => p.phone == some (normalizePhoneNumber quoted)) with
                | some p => .member p
                | none => .raw quoted
              else if isLidStr quoted then
                match members.find? (fun p => p.id == some quoted) with
                | some p => .member p
                | none => .raw quoted
              else .raw quoted
            some { ref := jsOrStr m.quotedStanzaID "unresolved reference",
                   author := author,
                   body := extractMessageBody q.isMedia q.body q.content }

/-- One summarized reaction group. -/
structure ReactionSummary where
  emoji : String
  count : Nat
  reactedBy : List String
deriving DecidableEq

/-- enrichment.js formatReactionsForMessage: null for absent or empty
reactions, else one summary per group with suffix-stripped sender ids. -/
def formatReactionsForMessage (m : Msg) : Option (List ReactionSummary) :=
  match m.reactions with
  | none => none
  | some rs =>
      if rs.isEmpty then none
      else some (rs.map (fun r =>
        { emoji := r.aggregateEmoji,
          count := r.senders.length,
          reactedBy := r.senders.map (fun s => replaceAtDotStar s.senderUserJid) }))

/-- The intermediate record built by enrichment.js enrichSingleMessage. -/
structure EnrichedMid where
  id : JsStrOr
  sender : SenderRes
  timestamp : TSVal
  body : String
  replyTo : Option ReplyRef
  reactions : Option (List ReactionSummary)
deriving DecidableEq

/-- enrichment.js enrichSingleMessage (the index argument is only logged,
so it is dropped): the message hash when the id parses, else the raw id. -/
def enrichSingleMessage (m : Msg) (members : List Participant) : EnrichedMid :=
  { id := match parseMessageId m.id with
          | .valid _ msgHashId _ => .str msgHashId
          | .invalid _ _ => m.id,
    sender := resolveSender m members,
    timestamp := m.timestamp,
    body := extractMessageBody m.isMedia m.body m.content,
    replyTo := buildReplyTo m members,
    reactions := formatReactionsForMessage m }

/-- enrichment.js isValidMessage: the timestamp is of number type and
strictly positive (NaN is of number type but not greater than zero). -/
def isValidMessage (e : EnrichedMid) : Bool :=
  match e.timestamp with
  | .num n => decide (0 < n)
  | _ => false

/-- The same validity test expressed on the raw message. -/
def hasValidTimestamp (m : Msg) : Bool :=
  match m.timestamp with
  | .num n => decide (0 < n)
  | _ => false

/-- Decimal rendering of a natural number padded with leading zeros. -/
def padZ (width : Nat) (n : Nat) : String :=
  let s := toString n
  String.mk (List.replicate (width - s.length) '0') ++ s

/-- Proleptic Gregorian civil date from a count of days since the epoch
(the standard era-based algorithm used by date libraries). -/
def civilFromDays (z0 : Int) : Int × Nat × Nat :=
  let z := z0 + 719468
  let era := Int.fdiv z 146097
  let doe := (z - era * 146097).toNat
  let yoe := (doe - doe / 1460 + doe / 36524 - doe / 146096) / 365
  let y : Int := (yoe : Int) + era * 400
  let doy := doe - (365 * yoe + yoe / 4 - yoe / 100)
  let mp := (5 * doy + 2) / 153
  let d := doy - (153 * mp + 2) / 5 + 1
  let mo := if mp < 10 then mp + 3 else mp - 9
  (if mo ≤ 2 then y + 1 else y, mo, d)

/-- The ISO-8601 UTC rendering produced by Date.toISOString for an
epoch-seconds value within the representable Date range. -/
def isoOfSeconds (secs : Int) : String :=
  let ms := secs * 1000
  let days := Int.fdiv ms 86400000
  let msod := (ms - days * 86400000).toNat
  let cd := civilFromDays days
  let y := cd.1
  let mo := cd.2.1
  let d := cd.2.2
  let hh := msod / 3600000
  let mi := msod % 3600000 / 60000
  let ss := msod % 60000 / 1000
  let mss := msod % 1000
  let yearStr :=
    if 0 ≤ y && y ≤ 9999 then padZ 4 y.toNat
    else if y < 0 then "-" ++ padZ 6 (-y).toNat
    else "+" ++ padZ 6 y.toNat
  yearStr ++ "-" ++ padZ 2 mo ++ "-" ++ padZ 2 d ++ "T" ++ padZ 2 hh ++ ":" ++
    padZ 2 mi ++ ":" ++ padZ 2 ss ++ "." ++ padZ 3 mss ++ "Z"

/-- enrichment.js formatTimestamp: the toISOString of Date at the timestamp
times 1000.  A NaN or out-of-range Date has no ISO string (toISOString
throws); this is modelled as none and is unreachable for the validated
messages the pipeline applies it to. -/
def formatTimestamp (t : TSVal) : Option String :=
  match toNumTS t with
  | some n => if (n * 1000).natAbs ≤ 8640000000000000 then some (isoOfSeconds n) else none
  | none => none

/-- The final record shape produced by enrichment.js addFinalMetadata. -/
structure EnrichedFinal where
  serialNumber : Nat
  datetime : Option String
  messageId : JsStrOr
  sender : SenderRes
  body : String
  replyTo : Option ReplyRef
  reactions : Option (List ReactionSummary)
deriving DecidableEq

/-- enrichment.js addFinalMetadata: dense 1-based serial from the map index,
formatted datetime, and projection to the public schema. -/
def addFinalMetadata (e : EnrichedMid) (index : Nat) : EnrichedFinal :=
  { serialNumber := index + 1,
    datetime := formatTimestamp e.timestamp,
    messageId := e.id,
    sender := e.sender,
    body := e.body,
    replyTo := e.replyTo,
    reactions := e.reactions }

/-- Timestamp projection of a raw message (enrichment.js sortByTimestamp). -/
def msgTs (m : Msg) : TSVal := m.timestamp

/-- Timestamp projection of an intermediate enriched record. -/
def midTs (e : EnrichedMid) : TSVal := e.timestamp

/-- enrichment.js enrichMessages: stable-sort the raw messages in place by
timestamp, enrich each, filter out invalid timestamps, stable-sort again,
and assign final metadata with the dense map index. -/
def enrichMessages (messages : List Msg) (members : List Participant) :
    List EnrichedFinal :=
  let sorted := sortStable (tsLe msgTs) messages
  let enriched := sorted.map (fun m => enrichSingleMessage m members)
  let final := sortStable (tsLe midTs) (enriched.filter isValidMessage)
  final.enum.map (fun pr => addFinalMetadata pr.2 pr.1)

/-- Observable state of the two array arguments of enrichMessages after the
call: the messages array has been sorted in place by the initial
messages.sort call, while the members array is only ever read
(Array.find does not mutate), so it is returned unchanged. -/
def enrichMessagesPost (messages : List Msg) (members : List Participant) :
    List Msg × List Participant :=
  (sortStable (tsLe msgTs) messages, members)

/-- The intermediate list built inside enrichMessages right before final
metadata is attached: raw messages sorted, enriched, filtered for valid
timestamps and sorted again. -/
def enrichMidList (msgs : List Msg) (members : List Participant) : List EnrichedMid :=
  sortStable (tsLe midTs)
    (((sortStable (tsLe msgTs) msgs).map (fun m => enrichSingleMessage m members)).filter
      isValidMessage)

/-! Claims about mergeParticipants (C1, C2). -/

/-- A canonical partial identity in the sense of the data model: any present
field is a non-empty string, and the unresolved token is absent. -/
def IsCanonical (p : PartIdent) : Prop :=
  p.id ≠ some "" ∧ p.phone ≠ some "" ∧ p.name ≠ some "" ∧ p.unknown = none

instance (p : PartIdent) : Decidable (IsCanonical p) := by
  unfold IsCanonical
  infer_instance

/-! Claim C7: parseMessageId. -/

/-- The suffix strip as the amended claim describes it: keep the characters
before the first at-sign, drop the at-sign together with the following run
of non-line-terminator characters, and keep any line-terminator tail. -/
def specStrip (s : String) : String :=
  String.mk (s.data.takeWhile (fun c => c != '@') ++
    (((s.data.dropWhile (fun c => c != '@')).drop 1).dropWhile (fun d => !isLineTerm d)))

/-! Claim C3: the retry envelope retryOnDetachedFrame of crawl-service.js. -/

/-- Outcome of one invocation of the wrapped operation (attempt number to
outcome; the operation is stateful, so outcomes may differ per call). -/
inductive JsOutcome (α : Type) where
  | ok (a : α)
  | err (msg : String)
deriving DecidableEq

/-- What the retry envelope resolves to: a value, a thrown error, or the
undefined fall-through of a zero attempt bound. -/
inductive RetryResult (α : Type) where
  | ok (a : α)
  | err (msg : String)
  | fellThrough
deriving DecidableEq

/-- Observable trace of one retryOnDetachedFrame call: its resolution, the
number of operation calls made, and the sleeps performed, in order. -/
structure RetryTrace (α : Type) where
  result : RetryResult α
  calls : Nat
  delays : List Rat
deriving DecidableEq

/-- crawl-service.js transient-error test: a truthy error message containing
one of the four fragile-automation signatures. -/
def isDetachedFrameMsg (m : String) : Bool :=
  truthy m && (strIncludes m "detached Frame" ||
    strIncludes m "Execution context was destroyed" ||
    strIncludes m "Cannot find context" ||
    strIncludes m "Protocol error")

/-- The retry loop of retryOnDetachedFrame, from a given attempt number with
remaining loop iterations (remaining equals maxRetries - attempt + 1, so
the source guard attempt < maxRetries is remaining at least 2) and the
current delay.  Exhausting the loop without returning resolves with
undefined (fellThrough); that happens only for a zero attempt bound. -/
def retryFrom (ops : Nat → JsOutcome α) : Nat → Nat → Rat → RetryTrace α
  | _, 0, _ => ⟨.fellThrough, 0, []⟩
  | attempt, r + 1, delay =>
      match ops attempt with
      | .ok a => ⟨.ok a, 1, []⟩
      | .err m =>
          if isDetachedFrameMsg m && decide (1 ≤ r) then
            let t := retryFrom ops (attempt + 1) r (delay * (3 / 2))
            ⟨t.result, t.calls + 1, delay :: t.delays⟩
          else ⟨.err m, 1, []⟩

/-- crawl-service.js retryOnDetachedFrame(operation, maxRetries, delay). -/
def retryOnDetachedFrame (ops : Nat → JsOutcome α) (maxRetries : Nat) (delay : Rat) :
    RetryTrace α :=
  retryFrom ops 1 maxRetries delay

/-- The pure exponential-backoff schedule: n sleeps starting at d, each
1.5 times the previous. -/
def geomDelays (d : Rat) : Nat → List Rat
  | 0 => []
  | n + 1 => d :: geomDelays (d * (3 / 2)) n

/-! Claims C4, C5, C10: the pagination loop loadAllMessages of
crawl-service.js.  The remote client is an oracle from fetch index to the
post-retry-envelope outcome of loadEarlierMessages; waitForChatReady never
propagates (its failure is caught and logged), progress callbacks and the
inter-page sleep do not affect the result, so they are not modelled. -/

/-- A message as seen by the pagination loop: its dedup key and payload. -/
structure LMsg where
  id : String
  body : String
deriving DecidableEq

/-- One remote page fetch after the retry envelope: a page, or the error
escaping the exhausted envelope. -/
inductive FetchR where
  | ok (page : List LMsg)
  | err (msg : String)
deriving DecidableEq

/-- Result of the dedup pass over one fetched page.  The added counter of
the source increments exactly when a message is pushed, so it equals the
length of the collected fresh list and is modelled as that length. -/
structure AbsorbOut where
  seen : List String
  fresh : List LMsg
deriving DecidableEq

/-- The per-page dedup loop body: skip messages whose id is in the seen set,
collect the others in order while growing the set, and count them. -/
def absorb (seen : List String) : List LMsg → AbsorbOut
  | [] => ⟨seen, []⟩
  | m :: ms =>
      if seen.contains m.id then absorb seen ms
      else
        let r := absorb (m.id :: seen) ms
        ⟨r.seen, m :: r.fresh⟩

/-- Observable outcome of loadAllMessages: the returned list or the
propagated error, the number of page fetches made, and the accumulated
count observed at the start of each fetch. -/
structure LoadOut where
  result : Except String (List LMsg)
  fetches : Nat
  accSizes : List Nat

/-- The while loop of loadAllMessages: while the accumulated count is below
the cap, fetch a page; an empty page stops with the accumulated messages;
a page with zero previously-unseen ids stops likewise; a fetch error stops
with the accumulated messages when any exist and propagates otherwise;
otherwise the unseen messages are appended wholesale and the loop
continues. -/
def loadGo (pages : Nat → FetchR) (i : Nat) (seen : List String) (acc : List LMsg)
    (maxCount : Nat) : LoadOut :=
  if _h : acc.length < maxCount then
    match pages i with
    | .err e =>
        if 0 < acc.length then ⟨.ok acc, 1, [acc.length]⟩
        else ⟨.error e, 1, [acc.length]⟩
    | .ok page =>
        if page.isEmpty then ⟨.ok acc, 1, [acc.length]⟩
        else
          if hadd : (absorb seen page).fresh.length = 0 then ⟨.ok acc, 1, [acc.length]⟩
          else
            let rest := loadGo pages (i + 1) (absorb seen page).seen
              (acc ++ (absorb seen page).fresh) maxCount
            ⟨rest.result, rest.fetches + 1, acc.length :: rest.accSizes⟩
  else ⟨.ok acc, 0, []⟩
termination_by maxCount - acc.length
decreasing_by
  simp only [List.length_append]
  omega

/-- crawl-service.js loadAllMessages(client, chatId, maxCount): the loop
started with an empty dedup set and accumulator. -/
def loadAllMessages (pages : Nat → FetchR) (maxCount : Nat) : LoadOut :=
  loadGo pages 0 [] [] maxCount

/-! Claim C6: the multi-group run runCrawler of crawl-service.js.
processGroup performs remote and file work, so it enters the model as an
oracle from group to outcome: ok none models its null return for a group
with zero messages (nothing is pushed to results), ok some a success
record, and error a thrown error.  The cached-groups path is modelled by
passing the group list directly. -/

/-- A cached group entry as consumed by runCrawler. -/
structure GroupInfo where
  id : String
  name : String
deriving DecidableEq

/-- A successful per-group result record. -/
structure GroupSuccess where
  groupName : String
  messageCount : Nat
  participantCount : Nat
deriving DecidableEq

/-- One entry of the results array: a success record, or the captured
failure entry carrying the group name and the error message. -/
inductive RCEntry where
  | success (r : GroupSuccess)
  | failure (groupName : String) (error : String)
deriving DecidableEq

/-- The JS no-error test used for the success count: success entries have no
error field, and a failure entry counts as error-free exactly when its
message is falsy. -/
def entryNoError : RCEntry → Bool
  | .success _ => true
  | .failure _ e => !truthy e

/-- The summary shape returned by runCrawler. -/
structure Summary where
  totalGroups : Nat
  successful : Nat
  failed : Nat
  results : List RCEntry
deriving DecidableEq

/-- The per-group body of the runCrawler loop: push a success record, push a
captured failure entry, or push nothing for a null result. -/
def procEntry (process : GroupInfo → Except String (Option GroupSuccess))
    (g : GroupInfo) : Option RCEntry :=
  match process g with
  | .ok none => none
  | .ok (some r) => some (.success r)
  | .error e => some (.failure g.name e)

/-- crawl-service.js runCrawler(client, selectedGroupIds, _, cachedGroups):
filter the cached groups by the selected ids, throw when none match,
otherwise process every selected group sequentially, capturing per-group
errors into entries, and return the summary with the success count and the
derived failure count. -/
def runCrawler (process : GroupInfo → Except String (Option GroupSuccess))
    (selectedGroupIds : List String) (allGroups : List GroupInfo) :
    Except String Summary :=
  let selectedGroups := allGroups.filter (fun g => selectedGroupIds.contains g.id)
  if selectedGroups.isEmpty then .error "No valid groups found for selected IDs"
  else
    let results := selectedGroups.filterMap (procEntry process)
    let successCount := results.countP entryNoError
    .ok ⟨selectedGroups.length, successCount, selectedGroups.length - successCount, results⟩

theorem tsKeep_true_le {u v : TSVal} (h : tsKeep u v = true) :
    ∀ x y, toNumTS u = some x → toNumTS v = some y → x ≤ y := by
  intro x y hx hy
  unfold tsKeep at h
  rw [hx, hy] at h
  exact of_decide_eq_true h

theorem tsKeep_false {u v : TSVal} (h : tsKeep u v = false) :
    ∃ x y, toNumTS u = some x ∧ toNumTS v = some y ∧ y < x := by
  unfold tsKeep at h
  rcases hu : toNumTS u with _ | x <;> rw [hu] at h
  · simp at h
  · rcases hv : toNumTS v with _ | y <;> rw [hv] at h
    · simp at h
    · exact ⟨x, y, rfl, rfl, by simpa using of_decide_eq_false h⟩

theorem insertStable_perm (le : α → α → Bool) (x : α) (l : List α) :
    (insertStable le x l).Perm (x :: l) := by
  induction l with
  | nil => exact List.Perm.refl _
  | cons y ys ih =>
      unfold insertStable
      cases hk : le y x with
      | true =>
          rw [if_pos rfl]
          exact (ih.cons y).trans (List.Perm.swap x y ys)
      | false =>
          rw [if_neg (by simp)]

theorem sortStableAux_perm (le : α → α → Bool) (l : List α) :
    ∀ acc, (sortStableAux le acc l).Perm (acc ++ l) := by
  induction l with
  | nil => intro acc; simp [sortStableAux]
  | cons x xs ih =>
      intro acc
      unfold sortStableAux
      refine (ih (insertStable le x acc)).trans ?_
      refine ((insertStable_perm le x acc).append_right xs).trans ?_
      exact List.perm_middle.symm

theorem sortStable_perm (le : α → α → Bool) (l : List α) :
    (sortStable le l).Perm l := by
  simpa [sortStable] using sortStableAux_perm le l []

theorem numLE_of_keep {ts : α → TSVal} {y x : α} (h : tsLe ts y x = true) :
    NumLE ts y x := by
  intro a b ha hb
  exact tsKeep_true_le h a b ha hb

theorem insertStable_numSorted {ts : α → TSVal} (x : α) :
    ∀ {acc : List α}, NumSorted ts acc →
      NumSorted ts (insertStable (tsLe ts) x acc) := by
  intro acc
  induction acc with
  | nil => intro _; simp [insertStable, NumSorted]
  | cons y ys ih =>
      intro h
      rw [NumSorted, List.pairwise_cons] at h
      obtain ⟨hy, hys⟩ := h
      unfold insertStable
      cases hk : tsLe ts y x with
      | true =>
          rw [if_pos rfl]
          rw [NumSorted, List.pairwise_cons]
          refine ⟨?_, ih hys⟩
          intro z hz
          have hz2 := (insertStable_perm (tsLe ts) x ys).mem_iff.mp hz
          rcases List.mem_cons.mp hz2 with hz1 | hz1
          · subst hz1; exact numLE_of_keep hk
          · exact hy z hz1
      | false =>
          rw [if_neg (by simp)]
          obtain ⟨a, b, hya, hxb, hba⟩ := tsKeep_false (by simpa [tsLe] using hk)
          rw [NumSorted, List.pairwise_cons]
          constructor
          · intro z hz
            rcases List.mem_cons.mp hz with hz1 | hz1
            · subst hz1
              intro p q hp hq
              rw [hxb] at hp
              injection hp with hp
              rw [hya] at hq
              injection hq with hq
              omega
            · intro p q hp hq
              rw [hxb] at hp
              injection hp with hp
              have := hy z hz1 a q hya hq
              omega
          · exact List.Pairwise.cons hy hys

theorem sortStableAux_numSorted {ts : α → TSVal} (l : List α) :
    ∀ {acc : List α}, NumSorted ts acc →
      NumSorted ts (sortStableAux (tsLe ts) acc l) := by
  induction l with
  | nil => intro acc h; exact h
  | cons x xs ih =>
      intro acc h
      exact ih (insertStable_numSorted x h)

theorem sortStable_numSorted (ts : α → TSVal) (l : List α) :
    NumSorted ts (sortStable (tsLe ts) l) :=
  sortStableAux_numSorted l (by simp [NumSorted])

theorem insertStable_filter {ts : α → TSVal} {t : Int} {p : α → Bool}
    (hp : ∀ m, p m = true → toNumTS (ts m) = some t) (x : α) :
    ∀ {acc : List α}, NumSorted ts acc →
      (insertStable (tsLe ts) x acc).filter p
        = acc.filter p ++ (if p x then [x] else []) := by
  intro acc
  induction acc with
  | nil =>
      intro _
      cases hx : p x with
      | true => simp [insertStable, List.filter, hx]
      | false => simp [insertStable, List.filter, hx]
  | cons y ys ih =>
      intro h
      rw [NumSorted, List.pairwise_cons] at h
      obtain ⟨hy, hys⟩ := h
      unfold insertStable
      cases hk : tsLe ts y x with
      | true =>
          rw [if_pos rfl]
          cases hpy : p y with
          | true => simp [List.filter_cons, hpy, ih hys]
          | false => simp [List.filter_cons, hpy, ih hys]
      | false =>
          rw [if_neg (by simp)]
          cases hpx : p x with
          | false => simp [List.filter_cons, hpx]
          | true =>
              obtain ⟨a, b, hya, hxb, hba⟩ := tsKeep_false (by simpa [tsLe] using hk)
              have hxt : toNumTS (ts x) = some t := hp x hpx
              rw [hxt] at hxb
              injection hxb with hbt
              have hfil : (y :: ys).filter p = [] := by
                rw [List.filter_eq_nil_iff]
                intro z hz hpz
                have hzt : toNumTS (ts z) = some t := hp z hpz
                rcases List.mem_cons.mp hz with hz1 | hz1
                · subst hz1
                  rw [hya] at hzt
                  injection hzt with hzt
                  omega
                · have hle := hy z hz1 a t hya hzt
                  omega
              simp [List.filter_cons, hpx, hfil]

theorem sortStableAux_filter {ts : α → TSVal} {t : Int} {p : α → Bool}
    (hp : ∀ m, p m = true → toNumTS (ts m) = some t) (l : List α) :
    ∀ {acc : List α}, NumSorted ts acc →
      (sortStableAux (tsLe ts) acc l).filter p = acc.filter p ++ l.filter p := by
  induction l with
  | nil => intro acc _; simp [sortStableAux]
  | cons x xs ih =>
      intro acc h
      unfold sortStableAux
      rw [ih (insertStable_numSorted x h), insertStable_filter hp x h]
      cases hpx : p x with
      | true => simp [List.filter_cons, hpx]
      | false => simp [List.filter_cons, hpx]

/-- Stability of the sort: for any fixed numeric timestamp, the subsequence
of elements carrying exactly that timestamp is unchanged by sorting. -/
theorem sortStable_filter {ts : α → TSVal} {t : Int} {p : α → Bool}
    (hp : ∀ m, p m = true → toNumTS (ts m) = some t) (l : List α) :
    (sortStable (tsLe ts) l).filter p = l.filter p := by
  have h0 : NumSorted ts ([] : List α) := by simp [NumSorted]
  have := sortStableAux_filter hp l h0
  simpa [sortStable] using this

theorem valid_enrich (m : Msg) (members : List Participant) :
    isValidMessage (enrichSingleMessage m members) = hasValidTimestamp m := rfl

theorem enumFrom_serial {β : Type _} (n : Nat) (l : List β) :
    (List.enumFrom n l).map (fun pr => pr.1 + 1) = List.range' (n + 1) l.length := by
  induction l generalizing n with
  | nil => rfl
  | cons x xs ih => simp [List.enumFrom, List.range', ih]

example :
    parseMessageId (.str "false_120@g.us_ABC123_972501234567@c.us")
      = .valid "120@g.us" "ABC123" "972501234567" := by decide

example : parseMessageId (.str "only_three_parts") =
    .invalid "Invalid message ID format" (.str "only_three_parts") := by decide

example : parseMessageId .nonString =
    .invalid "Message ID is not a string" .nonString := by decide

example : isPhoneNumberStr "+972 50-123-4567" = true := by decide

example : isPhoneNumberStr "abcdef" = false := by decide

example : normalizePhoneNumber "+972 50-123-4567" = "972501234567" := by decide

example :
    mergeParticipants { id := some "a", name := some "N" } { id := some "b", phone := some "p" }
      = { id := some "a", altId := some "b", phone := some "p", name := some "N" } := by decide

theorem enrichMidList_perm (msgs : List Msg) (members : List Participant) :
    (enrichMidList msgs members).Perm
      ((msgs.filter hasValidTimestamp).map (fun m => enrichSingleMessage m members)) := by
  have e1 : (((sortStable (tsLe msgTs) msgs).map (fun m => enrichSingleMessage m members)).filter
        isValidMessage)
      = ((sortStable (tsLe msgTs) msgs).filter hasValidTimestamp).map
          (fun m => enrichSingleMessage m members) := by
    rw [List.filter_map]
    exact congrArg _ (List.filter_congr (fun m _ => valid_enrich m members))
  refine (sortStable_perm _ _).trans ?_
  rw [e1]
  exact ((sortStable_perm (tsLe msgTs) msgs).filter hasValidTimestamp).map _

theorem enrichMidList_stable (msgs : List Msg) (members : List Participant) (t : Int) :
    (enrichMidList msgs members).filter (fun e => toNumTS (midTs e) == some t)
      = ((msgs.filter hasValidTimestamp).map (fun m => enrichSingleMessage m members)).filter
          (fun e => toNumTS (midTs e) == some t) := by
  have hp : ∀ e : EnrichedMid,
      (fun e => toNumTS (midTs e) == some t) e = true → toNumTS (midTs e) = some t := by
    intro e h
    simpa using h
  have hq : ∀ m : Msg,
      (fun m => (toNumTS (midTs (enrichSingleMessage m members)) == some t) &&
        isValidMessage (enrichSingleMessage m members)) m = true →
      toNumTS (msgTs m) = some t := by
    intro m h
    rw [Bool.and_eq_true] at h
    simpa using h.1
  calc (enrichMidList msgs members).filter (fun e => toNumTS (midTs e) == some t)
      = (((sortStable (tsLe msgTs) msgs).map (fun m => enrichSingleMessage m members)).filter
          isValidMessage).filter (fun e => toNumTS (midTs e) == some t) :=
        sortStable_filter hp _
    _ = List.map (fun m => enrichSingleMessage m members)
          (List.filter (fun m => (toNumTS (midTs (enrichSingleMessage m members)) == some t) &&
            isValidMessage (enrichSingleMessage m members)) (sortStable (tsLe msgTs) msgs)) :=
        (List.filter_filter _ _).trans (List.filter_map _ _)
    _ = List.map (fun m => enrichSingleMessage m members)
          (List.filter (fun m => (toNumTS (midTs (enrichSingleMessage m members)) == some t) &&
            isValidMessage (enrichSingleMessage m members)) msgs) :=
        congrArg _ (sortStable_filter hq msgs)
    _ = List.map (fun m => enrichSingleMessage m members)
          (List.filter (fun m => (toNumTS (midTs (enrichSingleMessage m members)) == some t) &&
            hasValidTimestamp m) msgs) :=
        congrArg _ (List.filter_congr (fun m _ => by rw [valid_enrich]))
    _ = ((msgs.filter hasValidTimestamp).map (fun m => enrichSingleMessage m members)).filter
          (fun e => toNumTS (midTs e) == some t) :=
        (Eq.trans
          (@List.filter_map Msg EnrichedMid (fun e => toNumTS (midTs e) == some t)
            (fun m => enrichSingleMessage m members) (List.filter hasValidTimestamp msgs))
          (congrArg (List.map (fun m => enrichSingleMessage m members))
            (@List.filter_filter Msg
              ((fun e : EnrichedMid => toNumTS (midTs e) == some t) ∘
                (fun m => enrichSingleMessage m members))
              hasValidTimestamp msgs))).symm

/-- C8: enrichMessages keeps exactly the messages with a numeric, strictly
positive timestamp, in ascending timestamp order with ties in arrival
order (the per-timestamp subsequences are preserved), and attaches dense
1-based serial numbers assigned by final position. -/
theorem enrichMessages_spec (msgs : List Msg) (members : List Participant) :
    enrichMessages msgs members
        = (enrichMidList msgs members).enum.map (fun pr => addFinalMetadata pr.2 pr.1)
    ∧ (enrichMidList msgs members).Perm
        ((msgs.filter hasValidTimestamp).map (fun m => enrichSingleMessage m members))
    ∧ NumSorted midTs (enrichMidList msgs members)
    ∧ (∀ e ∈ enrichMidList msgs members, ∃ n : Int, toNumTS (midTs e) = some n ∧ 0 < n)
    ∧ (∀ t : Int,
        (enrichMidList msgs members).filter (fun e => toNumTS (midTs e) == some t)
          = ((msgs.filter hasValidTimestamp).map
              (fun m => enrichSingleMessage m members)).filter
                (fun e => toNumTS (midTs e) == some t))
    ∧ (enrichMessages msgs members).map (fun e => e.serialNumber)
        = List.range' 1 (msgs.filter hasValidTimestamp).length := by
  refine ⟨rfl, enrichMidList_perm msgs members, ?_, ?_, enrichMidList_stable msgs members, ?_⟩
  · exact sortStableAux_numSorted _ (by simp [NumSorted])
  · intro e he
    have he2 := (sortStable_perm (tsLe midTs) _).mem_iff.mp he
    have hv := (List.mem_filter.mp he2).2
    rcases ht : e.timestamp with n | _ | c <;> simp [isValidMessage, ht] at hv
    exact ⟨n, by simp [midTs, ht, toNumTS], hv⟩
  · have h0 : enrichMessages msgs members
        = (enrichMidList msgs members).enum.map (fun pr => addFinalMetadata pr.2 pr.1) := rfl
    rw [h0, List.map_map]
    have h1 : ((fun e => e.serialNumber) ∘ fun pr : Nat × EnrichedMid =>
        addFinalMetadata pr.2 pr.1) = fun pr : Nat × EnrichedMid => pr.1 + 1 := rfl
    rw [h1]
    have h2 : List.enum (enrichMidList msgs members)
        = List.enumFrom 0 (enrichMidList msgs members) := rfl
    rw [h2, enumFrom_serial]
    have h3 := (enrichMidList_perm msgs members).length_eq
    rw [List.length_map] at h3
    rw [h3]

/-- C9 (counterexample): enrichMessages is not observationally pure in its
first argument; with two messages out of timestamp order, the messages
array differs after the call from its state before it. -/
theorem enrichMessagesPost_moves :
    (enrichMessagesPost
        [{ id := .str "a", timestamp := .num 2 }, { id := .str "b", timestamp := .num 1 }]
        []).1
      ≠ [{ id := .str "a", timestamp := .num 2 }, { id := .str "b", timestamp := .num 1 }] := by
  decide

/-- C9 (amended): enrichMessages never touches the participants array, and
leaves the messages array with exactly the same elements, stably sorted in
place by timestamp (so already-sorted input is left observably unchanged). -/
theorem enrichMessagesPost_spec (msgs : List Msg) (members : List Participant) :
    (enrichMessagesPost msgs members).2 = members
    ∧ (enrichMessagesPost msgs members).1.Perm msgs
    ∧ NumSorted msgTs (enrichMessagesPost msgs members).1 :=
  ⟨rfl, sortStable_perm _ _, sortStableAux_numSorted _ (by simp [NumSorted])⟩

theorem not_truthy_eq_none {x : Option String} (hx : x ≠ some "")
    (h : truthyOpt x = false) : x = none := by
  cases x with
  | none => rfl
  | some s =>
      simp [truthyOpt, truthy] at h
      exact absurd (by rw [h]) hx

theorem truthy_of_ne {v : String} {x : Option String} (hx : x ≠ some "")
    (h : x = some v) : truthyOpt x = true := by
  subst h
  simp only [truthyOpt, truthy, decide_eq_true_eq]
  intro hv
  exact hx (by rw [hv])

theorem bothDiffer_comm (x y : Option String) : bothDiffer x y = bothDiffer y x := by
  simp only [bothDiffer]
  cases htx : truthyOpt x <;> cases hty : truthyOpt y <;> simp
  exact eq_comm

theorem mergeField_keep (x y : Option String) (hx : x ≠ some "") (hy : y ≠ some "")
    (v : String) :
    x = some v ∨ y = some v →
    ((if bothDiffer x y then x else jsOrOpt x y) = some v ∨
      (if bothDiffer x y then y else none) = some v) := by
  intro h
  by_cases hd : bothDiffer x y = true
  · rw [if_pos hd, if_pos hd]
    exact h
  · rw [if_neg hd, if_neg hd]
    rcases h with h | h
    · left
      have htx := truthy_of_ne hx h
      simp only [jsOrOpt]
      rw [if_pos htx]
      exact h
    · have hty := truthy_of_ne hy h
      by_cases htx : truthyOpt x = true
      · left
        have hxy : x = y := by
          by_contra hne
          exact hd (by simp [bothDiffer, htx, hty, hne])
        simp only [jsOrOpt]
        rw [if_pos htx, hxy]
        exact h
      · left
        simp only [jsOrOpt]
        rw [if_neg htx]
        exact h

theorem mergeField_conflict (x y : Option String) (htx : truthyOpt x = true)
    (hty : truthyOpt y = true) (hne : x ≠ y) :
    (if bothDiffer x y then x else jsOrOpt x y) = x ∧
      (if bothDiffer x y then y else none) = y := by
  have hd : bothDiffer x y = true := by simp [bothDiffer, htx, hty, hne]
  rw [if_pos hd, if_pos hd]
  exact ⟨rfl, rfl⟩

theorem jsOrOpt_comm (x y : Option String) (hx : x ≠ some "") (hy : y ≠ some "")
    (hd : ¬bothDiffer x y = true) : jsOrOpt x y = jsOrOpt y x := by
  by_cases htx : truthyOpt x = true <;> by_cases hty : truthyOpt y = true
  · have hxy : x = y := by
      by_contra hne
      exact hd (by simp [bothDiffer, htx, hty, hne])
    rw [hxy]
  · have hy0 := not_truthy_eq_none hy (by simpa using hty)
    subst hy0
    simp only [jsOrOpt]
    rw [if_pos htx, if_neg (by simp [truthyOpt])]
  · have hx0 := not_truthy_eq_none hx (by simpa using htx)
    subst hx0
    simp only [jsOrOpt]
    rw [if_neg (by simp [truthyOpt]), if_pos hty]
  · have hx0 := not_truthy_eq_none hx (by simpa using htx)
    have hy0 := not_truthy_eq_none hy (by simpa using hty)
    subst hx0
    subst hy0
    rfl

theorem mergeField_swap (x y : Option String) (hx : x ≠ some "") (hy : y ≠ some "")
    (v : String) :
    ((if bothDiffer x y then x else jsOrOpt x y) = some v ∨
      (if bothDiffer x y then y else none) = some v)
    ↔ ((if bothDiffer y x then y else jsOrOpt y x) = some v ∨
      (if bothDiffer y x then x else none) = some v) := by
  rw [bothDiffer_comm y x]
  by_cases hd : bothDiffer x y = true
  · rw [if_pos hd, if_pos hd, if_pos hd, if_pos hd]
    exact or_comm
  · rw [if_neg hd, if_neg hd, if_neg hd, if_neg hd]
    rw [jsOrOpt_comm x y hx hy hd]

/-- The three primary-field projections of the merge, with the unresolved
fallbacks inert for canonical inputs. -/
theorem merge_name_eq (a b : PartIdent) (ha : IsCanonical a) (hb : IsCanonical b) :
    (mergeParticipants a b).name
      = (if bothDiffer a.name b.name then a.name else jsOrOpt a.name b.name) := by
  obtain ⟨_, _, _, hau⟩ := ha
  obtain ⟨_, _, _, hbu⟩ := hb
  simp [mergeParticipants, hau, hbu, truthyOpt]

/-- C1: for canonical partial identities, mergeParticipants retains every
present field value of either input under the primary or the alt key, and
on a per-field conflict the first argument's value is kept under the
primary key while the second's appears under the alt key. -/
theorem mergeParticipants_lossless (a b : PartIdent)
    (ha : IsCanonical a) (hb : IsCanonical b) :
    (∀ v, a.id = some v ∨ b.id = some v →
        (mergeParticipants a b).id = some v ∨ (mergeParticipants a b).altId = some v)
    ∧ (∀ v, a.phone = some v ∨ b.phone = some v →
        (mergeParticipants a b).phone = some v ∨ (mergeParticipants a b).altPhone = some v)
    ∧ (∀ v, a.name = some v ∨ b.name = some v →
        (mergeParticipants a b).name = some v ∨ (mergeParticipants a b).altName = some v)
    ∧ (truthyOpt a.id = true → truthyOpt b.id = true → a.id ≠ b.id →
        (mergeParticipants a b).id = a.id ∧ (mergeParticipants a b).altId = b.id)
    ∧ (truthyOpt a.phone = true → truthyOpt b.phone = true → a.phone ≠ b.phone →
        (mergeParticipants a b).phone = a.phone ∧ (mergeParticipants a b).altPhone = b.phone)
    ∧ (truthyOpt a.name = true → truthyOpt b.name = true → a.name ≠ b.name →
        (mergeParticipants a b).name = a.name ∧ (mergeParticipants a b).altName = b.name) := by
  obtain ⟨ha1, ha2, ha3, hau⟩ := ha
  obtain ⟨hb1, hb2, hb3, hbu⟩ := hb
  refine ⟨?_, ?_, ?_, ?_, ?_, ?_⟩
  · intro v h
    exact mergeField_keep a.id b.id ha1 hb1 v h
  · intro v h
    exact mergeField_keep a.phone b.phone ha2 hb2 v h
  · intro v h
    rw [merge_name_eq a b ⟨ha1, ha2, ha3, hau⟩ ⟨hb1, hb2, hb3, hbu⟩]
    exact mergeField_keep a.name b.name ha3 hb3 v h
  · intro h1 h2 h3
    exact mergeField_conflict a.id b.id h1 h2 h3
  · intro h1 h2 h3
    exact mergeField_conflict a.phone b.phone h1 h2 h3
  · intro h1 h2 h3
    rw [merge_name_eq a b ⟨ha1, ha2, ha3, hau⟩ ⟨hb1, hb2, hb3, hbu⟩]
    exact mergeField_conflict a.name b.name h1 h2 h3

/-- C1 witness at a concrete conflicting pair. -/
theorem mergeParticipants_lossless_witness :
    ((mergeParticipants { id := some "x", name := some "n1" }
        { id := some "y", phone := some "p", name := some "n2" }).name = some "n2"
      ∨ (mergeParticipants { id := some "x", name := some "n1" }
        { id := some "y", phone := some "p", name := some "n2" }).altName = some "n2") :=
  (mergeParticipants_lossless
      { id := some "x", name := some "n1" }
      { id := some "y", phone := some "p", name := some "n2" }
      (by decide) (by decide)).2.2.1 "n2" (Or.inr rfl)

/-- C2: for canonical partial identities the merge is order-stable: each
field of merge(a,b) and merge(b,a) carries exactly the same set of values
across its primary and alt slots, and on a conflict the two orders swap
which side is primary; no information is lost by swapping. -/
theorem mergeParticipants_orderStable (a b : PartIdent)
    (ha : IsCanonical a) (hb : IsCanonical b) :
    (∀ v, ((mergeParticipants a b).id = some v ∨ (mergeParticipants a b).altId = some v)
        ↔ ((mergeParticipants b a).id = some v ∨ (mergeParticipants b a).altId = some v))
    ∧ (∀ v, ((mergeParticipants a b).phone = some v ∨ (mergeParticipants a b).altPhone = some v)
        ↔ ((mergeParticipants b a).phone = some v ∨ (mergeParticipants b a).altPhone = some v))
    ∧ (∀ v, ((mergeParticipants a b).name = some v ∨ (mergeParticipants a b).altName = some v)
        ↔ ((mergeParticipants b a).name = some v ∨ (mergeParticipants b a).altName = some v))
    ∧ (truthyOpt a.name = true → truthyOpt b.name = true → a.name ≠ b.name →
        (mergeParticipants a b).name = a.name ∧ (mergeParticipants a b).altName = b.name
        ∧ (mergeParticipants b a).name = b.name ∧ (mergeParticipants b a).altName = a.name) := by
  obtain ⟨ha1, ha2, ha3, hau⟩ := ha
  obtain ⟨hb1, hb2, hb3, hbu⟩ := hb
  refine ⟨?_, ?_, ?_, ?_⟩
  · intro v
    exact mergeField_swap a.id b.id ha1 hb1 v
  · intro v
    exact mergeField_swap a.phone b.phone ha2 hb2 v
  · intro v
    rw [merge_name_eq a b ⟨ha1, ha2, ha3, hau⟩ ⟨hb1, hb2, hb3, hbu⟩,
      merge_name_eq b a ⟨hb1, hb2, hb3, hbu⟩ ⟨ha1, ha2, ha3, hau⟩]
    exact mergeField_swap a.name b.name ha3 hb3 v
  · intro h1 h2 h3
    rw [merge_name_eq a b ⟨ha1, ha2, ha3, hau⟩ ⟨hb1, hb2, hb3, hbu⟩,
      merge_name_eq b a ⟨hb1, hb2, hb3, hbu⟩ ⟨ha1, ha2, ha3, hau⟩]
    obtain ⟨k1, k2⟩ := mergeField_conflict a.name b.name h1 h2 h3
    obtain ⟨k3, k4⟩ := mergeField_conflict b.name a.name h2 h1 (fun e => h3 e.symm)
    exact ⟨k1, k2, k3, k4⟩

/-- C2 witness at a concrete conflicting pair. -/
theorem mergeParticipants_orderStable_witness :
    ((mergeParticipants { phone := some "p1" } { phone := some "p2" }).phone = some "p2"
      ∨ (mergeParticipants { phone := some "p1" } { phone := some "p2" }).altPhone = some "p2")
    ↔ ((mergeParticipants { phone := some "p2" } { phone := some "p1" }).phone = some "p2"
      ∨ (mergeParticipants { phone := some "p2" } { phone := some "p1" }).altPhone = some "p2") :=
  (mergeParticipants_orderStable { phone := some "p1" } { phone := some "p2" }
      (by decide) (by decide)).2.1 "p2"

theorem replAtAux_eq (l : List Char) :
    replAtAux l = l.takeWhile (fun c => c != '@') ++
      (((l.dropWhile (fun c => c != '@')).drop 1).dropWhile (fun d => !isLineTerm d)) := by
  induction l with
  | nil => rfl
  | cons c cs ih =>
      cases hc : c == '@'
      · have h1 : (c != '@') = true := by simp [bne, hc]
        simp [replAtAux, List.takeWhile_cons, List.dropWhile_cons, hc, h1, ih]
      · have h1 : (c != '@') = false := by simp [bne, hc]
        simp [replAtAux, List.takeWhile_cons, List.dropWhile_cons, hc, h1]

theorem replaceAtDotStar_eq_specStrip (s : String) :
    replaceAtDotStar s = specStrip s :=
  congrArg String.mk (replAtAux_eq s.data)

/-- C7 (counterexample): the sender part keeps everything after a line
terminator that follows the at-sign, so the suffix is not always stripped
to the end of the string. -/
theorem parseMessageId_counterexample :
    parseMessageId (.str "false_A_B_9@x\ny") = .valid "A" "B" "9\ny"
    ∧ "9\ny" ≠ "9" := ⟨by decide, by decide⟩

/-- C7 (amended): parseMessageId rejects non-strings and any split arity
other than 4 with the stable reasons; on exactly 4 underscore-separated
parts it returns the second and third parts and the fourth part with the
portion from the first at-sign up to the first following line terminator
removed; when the fourth part has no line terminators this strips
everything from the at-sign on. -/
theorem parseMessageId_amended :
    (parseMessageId .nonString = .invalid "Message ID is not a string" .nonString)
    ∧ (∀ s : String, (jsSplit s '_').length ≠ 4 →
        parseMessageId (.str s) = .invalid "Invalid message ID format" (.str s))
    ∧ (∀ s p0 p1 p2 p3, jsSplit s '_' = [p0, p1, p2, p3] →
        parseMessageId (.str s) = .valid p1 p2 (specStrip p3))
    ∧ (∀ s : String, (∀ c ∈ s.data, isLineTerm c = false) →
        specStrip s = String.mk (s.data.takeWhile (fun c => c != '@'))) := by
  refine ⟨rfl, ?_, ?_, ?_⟩
  · intro s hlen
    rcases h4 : jsSplit s '_' with _ | ⟨x0, _ | ⟨x1, _ | ⟨x2, _ | ⟨x3, _ | ⟨x4, l5⟩⟩⟩⟩⟩ <;>
      simp only [parseMessageId, h4]
    exact absurd (by rw [h4]; rfl) hlen
  · intro s p0 p1 p2 p3 h4
    simp only [parseMessageId, h4]
    rw [replaceAtDotStar_eq_specStrip]
  · intro s hno
    unfold specStrip
    congr 1
    have hdrop : (((s.data.dropWhile (fun c => c != '@')).drop 1).dropWhile
        (fun d => !isLineTerm d)) = [] := by
      rw [List.dropWhile_eq_nil_iff]
      intro c hc
      have hmem : c ∈ s.data :=
        (List.dropWhile_sublist _).subset ((List.drop_sublist 1 _).subset hc)
      simp [hno c hmem]
    rw [hdrop, List.append_nil]

/-- C7 (amended) witness: the documented scenario id. -/
theorem parseMessageId_amended_witness :
    parseMessageId (.str "false_120@g.us_ABC123_972501234567@c.us")
      = .valid "120@g.us" "ABC123" (specStrip "972501234567@c.us")
    ∧ specStrip "972501234567@c.us" = "972501234567" :=
  ⟨parseMessageId_amended.2.2.1 "false_120@g.us_ABC123_972501234567@c.us"
      "false" "120@g.us" "ABC123" "972501234567@c.us" (by decide),
    by decide⟩

theorem geomDelays_chain (n : Nat) :
    ∀ d : Rat, 0 < d → (geomDelays d n).Chain' (· < ·) := by
  induction n with
  | zero => intro d _; simp [geomDelays]
  | succ n ih =>
      intro d hd
      cases n with
      | zero => simp [geomDelays]
      | succ m =>
          rw [show geomDelays d (m + 1 + 1)
              = d :: (d * (3 / 2)) :: geomDelays (d * (3 / 2) * (3 / 2)) m from rfl]
          rw [List.chain'_cons]
          constructor
          · linarith
          · have h2 := ih (d * (3 / 2)) (by positivity)
            rw [show geomDelays (d * (3 / 2)) (m + 1)
                = (d * (3 / 2)) :: geomDelays (d * (3 / 2) * (3 / 2)) m from rfl] at h2
            exact h2

theorem retryFrom_ok {α : Type} {ops : Nat → JsOutcome α} {attempt r : Nat} {d : Rat}
    {a : α} (hok : ops attempt = .ok a) :
    retryFrom ops attempt (r + 1) d = ⟨.ok a, 1, []⟩ := by
  simp [retryFrom, hok]

theorem retryFrom_err_step {α : Type} {ops : Nat → JsOutcome α} {attempt r : Nat} {d : Rat}
    {m : String} (he : ops attempt = .err m) (ht : isDetachedFrameMsg m = true)
    (hr : 1 ≤ r) :
    retryFrom ops attempt (r + 1) d
      = ⟨(retryFrom ops (attempt + 1) r (d * (3 / 2))).result,
         (retryFrom ops (attempt + 1) r (d * (3 / 2))).calls + 1,
         d :: (retryFrom ops (attempt + 1) r (d * (3 / 2))).delays⟩ := by
  simp [retryFrom, he, ht, hr]

theorem retryFrom_err_last {α : Type} {ops : Nat → JsOutcome α} {attempt : Nat} {d : Rat}
    {m : String} (he : ops attempt = .err m) :
    retryFrom ops attempt (0 + 1) d = ⟨.err m, 1, []⟩ := by
  simp [retryFrom, he]

theorem retryFrom_allTransient {α : Type} (ops : Nat → JsOutcome α) (msgs : Nat → String) :
    ∀ (r attempt : Nat) (d : Rat),
      (∀ j, attempt ≤ j → j ≤ attempt + r →
        ops j = .err (msgs j) ∧ isDetachedFrameMsg (msgs j) = true) →
      retryFrom ops attempt (r + 1) d
        = ⟨.err (msgs (attempt + r)), r + 1, geomDelays d r⟩ := by
  intro r
  induction r with
  | zero =>
      intro attempt d hj
      obtain ⟨he, ht⟩ := hj attempt (le_refl _) (by omega)
      simp [retryFrom, he, ht, geomDelays]
  | succ r ih =>
      intro attempt d hj
      obtain ⟨he, ht⟩ := hj attempt (le_refl _) (by omega)
      have hrec := ih (attempt + 1) (d * (3 / 2)) (fun j h1 h2 => hj j (by omega) (by omega))
      have harg : attempt + 1 + r = attempt + (r + 1) := by omega
      rw [harg] at hrec
      rw [retryFrom_err_step he ht (by omega), hrec]
      rfl

theorem retryFrom_success {α : Type} (ops : Nat → JsOutcome α) (msgs : Nat → String) (a : α) :
    ∀ (r attempt k : Nat) (d : Rat), attempt ≤ k → k ≤ attempt + r →
      ops k = .ok a →
      (∀ j, attempt ≤ j → j < k →
        ops j = .err (msgs j) ∧ isDetachedFrameMsg (msgs j) = true) →
      (retryFrom ops attempt (r + 1) d).result = .ok a
      ∧ (retryFrom ops attempt (r + 1) d).calls = k - attempt + 1 := by
  intro r
  induction r with
  | zero =>
      intro attempt k d h1 h2 hok _
      have hk : k = attempt := by omega
      subst hk
      simp [retryFrom, hok]
  | succ r ih =>
      intro attempt k d h1 h2 hok hj
      by_cases hka : k = attempt
      · subst hka
        simp [retryFrom, hok]
      · obtain ⟨he, ht⟩ := hj attempt (le_refl _) (by omega)
        have hrec := ih (attempt + 1) k (d * (3 / 2)) (by omega) (by omega) hok
          (fun j ha hb => hj j (by omega) hb)
        have hcall : k - (attempt + 1) + 1 + 1 = k - attempt + 1 := by omega
        rw [retryFrom_err_step he ht (by omega)]
        exact ⟨hrec.1, by rw [show (⟨(retryFrom ops (attempt + 1) (r + 1) (d * (3 / 2))).result,
          (retryFrom ops (attempt + 1) (r + 1) (d * (3 / 2))).calls + 1,
          d :: (retryFrom ops (attempt + 1) (r + 1) (d * (3 / 2))).delays⟩ : RetryTrace α).calls
            = (retryFrom ops (attempt + 1) (r + 1) (d * (3 / 2))).calls + 1 from rfl,
          hrec.2, hcall]⟩

/-- C3: the retry envelope with a positive attempt bound propagates a
non-transient first error immediately with a single call and no sleep;
when every attempt fails transiently it makes exactly maxRetries calls,
sleeps the exponential backoff schedule (strictly increasing for a
positive initial delay) and propagates the last error unchanged; and when
attempt k succeeds after transient failures the caller receives attempt
k's result with exactly k calls and no error. -/
theorem retryOnDetachedFrame_spec {α : Type} (ops : Nat → JsOutcome α)
    (maxRetries : Nat) (d : Rat) (msgs : Nat → String) (a : α) :
    (∀ m, 1 ≤ maxRetries → ops 1 = .err m → isDetachedFrameMsg m = false →
      retryOnDetachedFrame ops maxRetries d = ⟨.err m, 1, []⟩)
    ∧ (1 ≤ maxRetries →
        (∀ j, 1 ≤ j → j ≤ maxRetries →
          ops j = .err (msgs j) ∧ isDetachedFrameMsg (msgs j) = true) →
        retryOnDetachedFrame ops maxRetries d
          = ⟨.err (msgs maxRetries), maxRetries, geomDelays d (maxRetries - 1)⟩
        ∧ (0 < d → (geomDelays d (maxRetries - 1)).Chain' (· < ·)))
    ∧ (∀ k, 1 ≤ k → k ≤ maxRetries → ops k = .ok a →
        (∀ j, 1 ≤ j → j < k →
          ops j = .err (msgs j) ∧ isDetachedFrameMsg (msgs j) = true) →
        (retryOnDetachedFrame ops maxRetries d).result = .ok a
        ∧ (retryOnDetachedFrame ops maxRetries d).calls = k) := by
  refine ⟨?_, ?_, ?_⟩
  · intro m h1 he ht
    cases maxRetries with
    | zero => omega
    | succ r => simp [retryOnDetachedFrame, retryFrom, he, ht]
  · intro h1 hj
    cases maxRetries with
    | zero => omega
    | succ r =>
        have h := retryFrom_allTransient ops msgs r 1 d
          (fun j ha hb => hj j ha (by omega))
        constructor
        · rw [retryOnDetachedFrame, h]
          have : 1 + r = r + 1 := by omega
          rw [this]
          simp
        · intro hd
          exact geomDelays_chain _ d hd
  · intro k hk1 hk2 hok hj
    cases maxRetries with
    | zero => omega
    | succ r =>
        have h := retryFrom_success ops msgs a r 1 k d (by omega) (by omega) hok
          (fun j ha hb => hj j ha hb)
        have : k - 1 + 1 = k := by omega
        rw [retryOnDetachedFrame]
        exact ⟨h.1, by rw [h.2, this]⟩

/-- C3 witness: a transient error on attempt 1 of 3, success on attempt 2. -/
theorem retryOnDetachedFrame_spec_witness :
    (retryOnDetachedFrame
        (fun n => if n = 1 then JsOutcome.err "detached Frame found" else JsOutcome.ok 42)
        3 1000).result = .ok 42
    ∧ (retryOnDetachedFrame
        (fun n => if n = 1 then JsOutcome.err "detached Frame found" else JsOutcome.ok 42)
        3 1000).calls = 2 := by
  refine (retryOnDetachedFrame_spec
      (fun n => if n = 1 then JsOutcome.err "detached Frame found" else JsOutcome.ok 42)
      3 1000 (fun _ => "detached Frame found") 42).2.2 2 (by decide) (by decide) rfl ?_
  intro j h1 h2
  have hj : j = 1 := by omega
  subst hj
  exact ⟨rfl, by decide⟩

theorem absorb_seen_super (seen : List String) (page : List LMsg) :
    ∀ s, s ∈ seen → s ∈ (absorb seen page).seen := by
  induction page generalizing seen with
  | nil => intro s hs; exact hs
  | cons m ms ih =>
      intro s hs
      by_cases hc : m.id ∈ seen
      · simpa [absorb, hc] using ih seen s hs
      · simpa [absorb, hc] using ih (m.id :: seen) s (List.mem_cons_of_mem _ hs)

theorem absorb_seen_mem (seen : List String) (page : List LMsg) :
    ∀ m ∈ page, m.id ∈ (absorb seen page).seen := by
  induction page generalizing seen with
  | nil => intro m hm; cases hm
  | cons m ms ih =>
      intro m2 hm2
      by_cases hc : m.id ∈ seen
      · rcases List.mem_cons.mp hm2 with h | h
        · subst h
          simpa [absorb, hc] using absorb_seen_super seen ms m2.id hc
        · simpa [absorb, hc] using ih seen m2 h
      · rcases List.mem_cons.mp hm2 with h | h
        · subst h
          simpa [absorb, hc] using
            absorb_seen_super (m2.id :: seen) ms m2.id (List.mem_cons_self _ _)
        · simpa [absorb, hc] using ih (m.id :: seen) m2 h

theorem absorb_added_zero (seen : List String) (page : List LMsg)
    (h : ∀ m ∈ page, m.id ∈ seen) : (absorb seen page).fresh.length = 0 := by
  induction page with
  | nil => rfl
  | cons m ms ih =>
      have hc : m.id ∈ seen := h m (List.mem_cons_self m ms)
      simpa [absorb, hc] using ih (fun m2 hm2 => h m2 (List.mem_cons_of_mem m hm2))

theorem absorb_added_pos (page : List LMsg) (hne : page ≠ []) :
    0 < (absorb [] page).fresh.length := by
  cases page with
  | nil => exact absurd rfl hne
  | cons m ms => simp [absorb]

theorem loadGo_capped (pages : Nat → FetchR) (i : Nat) (seen : List String)
    (acc : List LMsg) (maxCount : Nat) (h : ¬acc.length < maxCount) :
    loadGo pages i seen acc maxCount = ⟨.ok acc, 0, []⟩ := by
  conv_lhs => rw [loadGo.eq_def]
  rw [dif_neg h]

theorem loadGo_err (pages : Nat → FetchR) (i : Nat) (seen : List String)
    (acc : List LMsg) (maxCount : Nat) (e : String)
    (h : acc.length < maxCount) (hp : pages i = .err e) :
    loadGo pages i seen acc maxCount
      = if 0 < acc.length then ⟨.ok acc, 1, [acc.length]⟩
        else ⟨.error e, 1, [acc.length]⟩ := by
  conv_lhs => rw [loadGo.eq_def]
  rw [dif_pos h, hp]

theorem loadGo_empty (pages : Nat → FetchR) (i : Nat) (seen : List String)
    (acc : List LMsg) (maxCount : Nat)
    (h : acc.length < maxCount) (hp : pages i = .ok []) :
    loadGo pages i seen acc maxCount = ⟨.ok acc, 1, [acc.length]⟩ := by
  conv_lhs => rw [loadGo.eq_def]
  rw [dif_pos h, hp]
  rfl

theorem loadGo_zero_growth (pages : Nat → FetchR) (i : Nat) (seen : List String)
    (acc : List LMsg) (maxCount : Nat) (page : List LMsg)
    (h : acc.length < maxCount) (hp : pages i = .ok page) (hne : page ≠ [])
    (hz : (absorb seen page).fresh.length = 0) :
    loadGo pages i seen acc maxCount = ⟨.ok acc, 1, [acc.length]⟩ := by
  conv_lhs => rw [loadGo.eq_def]
  rw [dif_pos h, hp]
  have hie : page.isEmpty = false := by
    cases page with
    | nil => exact absurd rfl hne
    | cons a l => rfl
  simp [hie, hz]

theorem loadGo_step (pages : Nat → FetchR) (i : Nat) (seen : List String)
    (acc : List LMsg) (maxCount : Nat) (page : List LMsg)
    (h : acc.length < maxCount) (hp : pages i = .ok page) (hne : page ≠ [])
    (hz : (absorb seen page).fresh.length ≠ 0) :
    loadGo pages i seen acc maxCount
      = ⟨(loadGo pages (i + 1) (absorb seen page).seen (acc ++ (absorb seen page).fresh)
            maxCount).result,
         (loadGo pages (i + 1) (absorb seen page).seen (acc ++ (absorb seen page).fresh)
            maxCount).fetches + 1,
         acc.length :: (loadGo pages (i + 1) (absorb seen page).seen
            (acc ++ (absorb seen page).fresh) maxCount).accSizes⟩ := by
  conv_lhs => rw [loadGo.eq_def]
  rw [dif_pos h, hp]
  have hie : page.isEmpty = false := by
    cases page with
    | nil => exact absurd rfl hne
    | cons a l => rfl
  simp [hie, hz]

theorem absorb_fresh_le (seen : List String) (page : List LMsg) :
    (absorb seen page).fresh.length ≤ page.length := by
  induction page generalizing seen with
  | nil => exact le_refl _
  | cons m ms ih =>
      by_cases hc : m.id ∈ seen
      · have h1 : absorb seen (m :: ms) = absorb seen ms := by simp [absorb, hc]
        rw [h1]
        exact le_trans (ih seen) (by simp)
      · have h1 : absorb seen (m :: ms)
            = ⟨(absorb (m.id :: seen) ms).seen, m :: (absorb (m.id :: seen) ms).fresh⟩ := by
          simp [absorb, hc]
        rw [h1]
        simp only [List.length_cons]
        exact Nat.succ_le_succ (ih (m.id :: seen))

theorem loadGo_fetches_le (pages : Nat → FetchR) (maxCount : Nat) :
    ∀ (n i : Nat) (seen : List String) (acc : List LMsg),
      maxCount - acc.length ≤ n →
      (loadGo pages i seen acc maxCount).fetches ≤ maxCount - acc.length := by
  intro n
  induction n with
  | zero =>
      intro i seen acc hn
      have h0 : ¬acc.length < maxCount := by omega
      rw [loadGo_capped pages i seen acc maxCount h0]
      exact Nat.zero_le _
  | succ n ih =>
      intro i seen acc hn
      by_cases h : acc.length < maxCount
      · cases hp : pages i with
        | err e =>
            rw [loadGo_err pages i seen acc maxCount e h hp]
            by_cases ha : 0 < acc.length
            · rw [if_pos ha]; show 1 ≤ maxCount - acc.length; omega
            · rw [if_neg ha]; show 1 ≤ maxCount - acc.length; omega
        | ok page =>
            by_cases hem : page = []
            · subst hem
              rw [loadGo_empty pages i seen acc maxCount h hp]
              show 1 ≤ maxCount - acc.length
              omega
            · by_cases hz : (absorb seen page).fresh.length = 0
              · rw [loadGo_zero_growth pages i seen acc maxCount page h hp hem hz]
                show 1 ≤ maxCount - acc.length
                omega
              · rw [loadGo_step pages i seen acc maxCount page h hp hem hz]
                have hpos := Nat.pos_of_ne_zero hz
                have hlen : (acc ++ (absorb seen page).fresh).length
                    = acc.length + (absorb seen page).fresh.length :=
                  List.length_append acc _
                have hrec := ih (i + 1) (absorb seen page).seen
                  (acc ++ (absorb seen page).fresh) (by rw [hlen]; omega)
                rw [hlen] at hrec
                show (loadGo pages (i + 1) (absorb seen page).seen
                  (acc ++ (absorb seen page).fresh) maxCount).fetches + 1
                    ≤ maxCount - acc.length
                omega
      · rw [loadGo_capped pages i seen acc maxCount h]
        exact Nat.zero_le _

theorem loadGo_accSizes_lt (pages : Nat → FetchR) (maxCount : Nat) :
    ∀ (n i : Nat) (seen : List String) (acc : List LMsg),
      maxCount - acc.length ≤ n →
      ∀ v ∈ (loadGo pages i seen acc maxCount).accSizes, v < maxCount := by
  intro n
  induction n with
  | zero =>
      intro i seen acc hn
      have h0 : ¬acc.length < maxCount := by omega
      rw [loadGo_capped pages i seen acc maxCount h0]
      intro v hv
      cases hv
  | succ n ih =>
      intro i seen acc hn
      by_cases h : acc.length < maxCount
      · cases hp : pages i with
        | err e =>
            rw [loadGo_err pages i seen acc maxCount e h hp]
            by_cases ha : 0 < acc.length
            · rw [if_pos ha]
              intro v hv
              rw [List.mem_singleton.mp hv]
              exact h
            · rw [if_neg ha]
              intro v hv
              rw [List.mem_singleton.mp hv]
              exact h
        | ok page =>
            by_cases hem : page = []
            · subst hem
              rw [loadGo_empty pages i seen acc maxCount h hp]
              intro v hv
              rw [List.mem_singleton.mp hv]
              exact h
            · by_cases hz : (absorb seen page).fresh.length = 0
              · rw [loadGo_zero_growth pages i seen acc maxCount page h hp hem hz]
                intro v hv
                rw [List.mem_singleton.mp hv]
                exact h
              · rw [loadGo_step pages i seen acc maxCount page h hp hem hz]
                have hpos := Nat.pos_of_ne_zero hz
                have hlen : (acc ++ (absorb seen page).fresh).length
                    = acc.length + (absorb seen page).fresh.length :=
                  List.length_append acc _
                have hrec := ih (i + 1) (absorb seen page).seen
                  (acc ++ (absorb seen page).fresh) (by rw [hlen]; omega)
                intro v hv
                rcases List.mem_cons.mp hv with hv | hv
                · rw [hv]; exact h
                · exact hrec v hv
      · rw [loadGo_capped pages i seen acc maxCount h]
        intro v hv
        cases hv

theorem loadGo_result_le (pages : Nat → FetchR) (maxCount B : Nat)
    (hB : ∀ i p, pages i = .ok p → p.length ≤ B) :
    ∀ (n i : Nat) (seen : List String) (acc : List LMsg),
      maxCount - acc.length ≤ n →
      ∀ msgs, (loadGo pages i seen acc maxCount).result = .ok msgs →
        msgs.length ≤ max acc.length (maxCount - 1 + B) := by
  intro n
  induction n with
  | zero =>
      intro i seen acc hn msgs hres
      have h0 : ¬acc.length < maxCount := by omega
      rw [loadGo_capped pages i seen acc maxCount h0] at hres
      cases hres
      exact le_max_left _ _
  | succ n ih =>
      intro i seen acc hn msgs hres
      by_cases h : acc.length < maxCount
      · cases hp : pages i with
        | err e =>
            rw [loadGo_err pages i seen acc maxCount e h hp] at hres
            by_cases ha : 0 < acc.length
            · rw [if_pos ha] at hres
              cases hres
              exact le_max_left _ _
            · rw [if_neg ha] at hres
              cases hres
        | ok page =>
            by_cases hem : page = []
            · subst hem
              rw [loadGo_empty pages i seen acc maxCount h hp] at hres
              cases hres
              exact le_max_left _ _
            · by_cases hz : (absorb seen page).fresh.length = 0
              · rw [loadGo_zero_growth pages i seen acc maxCount page h hp hem hz] at hres
                cases hres
                exact le_max_left _ _
              · rw [loadGo_step pages i seen acc maxCount page h hp hem hz] at hres
                have hpos := Nat.pos_of_ne_zero hz
                have hlen : (acc ++ (absorb seen page).fresh).length
                    = acc.length + (absorb seen page).fresh.length :=
                  List.length_append acc _
                have haleB : (absorb seen page).fresh.length ≤ B :=
                  le_trans (absorb_fresh_le seen page) (hB i page hp)
                have hrec := ih (i + 1) (absorb seen page).seen
                  (acc ++ (absorb seen page).fresh) (by rw [hlen]; omega) msgs hres
                rw [hlen] at hrec
                have : acc.length + (absorb seen page).fresh.length ≤ maxCount - 1 + B := by
                  omega
                omega
      · rw [loadGo_capped pages i seen acc maxCount h] at hres
        cases hres
        exact le_max_left _ _

/-- C4: the pagination loop always terminates: it can never make more than
maxCount fetches against any remote whatsoever; once the accumulated count
reaches the cap no fetch is made; an empty page and a page with zero
previously-unseen ids each stop the loop normally with the accumulated
messages; and a remote whose second page repeats the first verbatim is
stopped normally (no error) within two fetches. -/
theorem loadAllMessages_spec (pages : Nat → FetchR) (maxCount : Nat) :
    (loadAllMessages pages maxCount).fetches ≤ maxCount
    ∧ (∀ i seen acc, ¬acc.length < maxCount →
        loadGo pages i seen acc maxCount = ⟨.ok acc, 0, []⟩)
    ∧ (∀ i seen acc, acc.length < maxCount → pages i = .ok [] →
        loadGo pages i seen acc maxCount = ⟨.ok acc, 1, [acc.length]⟩)
    ∧ (∀ i seen acc page, acc.length < maxCount → pages i = .ok page → page ≠ [] →
        (∀ m ∈ page, m.id ∈ seen) →
        loadGo pages i seen acc maxCount = ⟨.ok acc, 1, [acc.length]⟩)
    ∧ (∀ P, pages 0 = .ok P → pages 1 = .ok P →
        (loadAllMessages pages maxCount).result.isOk = true
        ∧ (loadAllMessages pages maxCount).fetches ≤ 2) := by
  refine ⟨?_, ?_, ?_, ?_, ?_⟩
  · have := loadGo_fetches_le pages maxCount maxCount 0 [] [] (by simp)
    rw [loadAllMessages]
    exact le_trans this (by simp)
  · intro i seen acc h
    exact loadGo_capped pages i seen acc maxCount h
  · intro i seen acc h hp
    exact loadGo_empty pages i seen acc maxCount h hp
  · intro i seen acc page h hp hne hall
    exact loadGo_zero_growth pages i seen acc maxCount page h hp hne
      (absorb_added_zero seen page hall)
  · intro P h0 h1
    by_cases hm : (0 : Nat) < maxCount
    · by_cases hP : P = []
      · subst hP
        rw [loadAllMessages, loadGo_empty pages 0 [] [] maxCount (by simpa) h0]
        exact ⟨rfl, by simp⟩
      · have hz : (absorb [] P).fresh.length ≠ 0 := (absorb_added_pos P hP).ne'
        rw [loadAllMessages, loadGo_step pages 0 [] [] maxCount P (by simpa) h0 hP hz]
        by_cases h2 : (([] : List LMsg) ++ (absorb [] P).fresh).length < maxCount
        · have hall : ∀ m ∈ P, m.id ∈ (absorb ([] : List String) P).seen :=
            absorb_seen_mem [] P
          have hz2 : (absorb (absorb ([] : List String) P).seen P).fresh.length = 0 :=
            absorb_added_zero _ _ hall
          rw [loadGo_zero_growth pages (0 + 1) (absorb [] P).seen
            ([] ++ (absorb [] P).fresh) maxCount P h2 h1 hP hz2]
          exact ⟨rfl, by simp⟩
        · rw [loadGo_capped pages (0 + 1) (absorb [] P).seen
            ([] ++ (absorb [] P).fresh) maxCount h2]
          exact ⟨rfl, by simp⟩
    · rw [loadAllMessages, loadGo_capped pages 0 [] [] maxCount (by simpa using hm)]
      exact ⟨rfl, by simp⟩

/-- C4 witness: a remote that repeats one page forever, cap 5000. -/
theorem loadAllMessages_spec_witness :
    (loadAllMessages (fun _ => .ok [⟨"id1", "hello"⟩]) 5000).result.isOk = true
    ∧ (loadAllMessages (fun _ => .ok [⟨"id1", "hello"⟩]) 5000).fetches ≤ 2 :=
  (loadAllMessages_spec (fun _ => .ok [⟨"id1", "hello"⟩]) 5000).2.2.2.2
    [⟨"id1", "hello"⟩] rfl rfl

/-- C5: when a page fetch fails even after the retry envelope, the loop
returns the accumulated messages as a normal result when any have been
accumulated, and propagates the error when none have: both at an arbitrary
loop state and for a whole run (a first-fetch failure propagates; a
failure after a successful first page returns that page's unique
messages). -/
theorem loadAllMessages_onError (pages : Nat → FetchR) (maxCount : Nat) :
    (∀ i seen acc e, acc.length < maxCount → pages i = .err e → 0 < acc.length →
        loadGo pages i seen acc maxCount = ⟨.ok acc, 1, [acc.length]⟩)
    ∧ (∀ i seen acc e, acc.length < maxCount → pages i = .err e → acc.length = 0 →
        loadGo pages i seen acc maxCount = ⟨.error e, 1, [acc.length]⟩)
    ∧ (∀ e, 1 ≤ maxCount → pages 0 = .err e →
        (loadAllMessages pages maxCount).result = .error e)
    ∧ (∀ P e, pages 0 = .ok P → P ≠ [] → pages 1 = .err e →
        (absorb [] P).fresh.length < maxCount →
        (loadAllMessages pages maxCount).result = .ok ((absorb [] P).fresh)) := by
  refine ⟨?_, ?_, ?_, ?_⟩
  · intro i seen acc e h hp ha
    rw [loadGo_err pages i seen acc maxCount e h hp, if_pos ha]
  · intro i seen acc e h hp ha
    rw [loadGo_err pages i seen acc maxCount e h hp, if_neg (by omega)]
  · intro e hm hp
    rw [loadAllMessages, loadGo_err pages 0 [] [] maxCount e (by simpa) hp,
      if_neg (by simp)]
  · intro P e h0 hP h1 hlt
    have hz : (absorb [] P).fresh.length ≠ 0 := (absorb_added_pos P hP).ne'
    have hm : (0 : Nat) < maxCount := by
      have := absorb_added_pos P hP
      omega
    rw [loadAllMessages, loadGo_step pages 0 [] [] maxCount P (by simpa) h0 hP hz,
      loadGo_err pages (0 + 1) (absorb [] P).seen ([] ++ (absorb [] P).fresh) maxCount e
        (by simpa) h1,
      if_pos (by
        simp only [List.nil_append]
        exact Nat.pos_of_ne_zero hz)]
    simp

/-- C5 witness: first page succeeds, second fetch fails post-retry. -/
theorem loadAllMessages_onError_witness :
    (loadAllMessages
        (fun i => if i = 0 then .ok [⟨"id1", "hello"⟩] else .err "Protocol error")
        5000).result = .ok [⟨"id1", "hello"⟩] := by
  have h := (loadAllMessages_onError
      (fun i => if i = 0 then .ok [⟨"id1", "hello"⟩] else .err "Protocol error")
      5000).2.2.2 [⟨"id1", "hello"⟩] "Protocol error" rfl (by decide) rfl (by decide)
  simpa using h

/-- C10: the cap is not a hard truncation: every fetch is made with the
accumulated count strictly below the cap, yet the returned list is only
bounded by the cap minus one plus the size bound of a fetched page, and a
run can return more than maxCount messages and is not cut back (a
three-message page against cap 2 returns all three messages). -/
theorem loadAllMessages_cap (pages : Nat → FetchR) (maxCount : Nat) :
    (∀ v ∈ (loadAllMessages pages maxCount).accSizes, v < maxCount)
    ∧ (∀ B, (∀ i p, pages i = .ok p → p.length ≤ B) →
        ∀ msgs, (loadAllMessages pages maxCount).result = .ok msgs →
          msgs.length ≤ maxCount - 1 + B)
    ∧ ((loadAllMessages (fun _ => FetchR.ok [⟨"a", "x"⟩, ⟨"b", "y"⟩, ⟨"c", "z"⟩]) 2).result
        = .ok [⟨"a", "x"⟩, ⟨"b", "y"⟩, ⟨"c", "z"⟩]) := by
  refine ⟨?_, ?_, ?_⟩
  · rw [loadAllMessages]
    exact loadGo_accSizes_lt pages maxCount maxCount 0 [] [] (by simp)
  · intro B hB msgs hres
    have := loadGo_result_le pages maxCount B hB maxCount 0 [] [] (by simp) msgs hres
    simpa using this
  · rw [loadAllMessages,
      loadGo_step (fun _ => FetchR.ok [⟨"a", "x"⟩, ⟨"b", "y"⟩, ⟨"c", "z"⟩]) 0 [] [] 2
        [⟨"a", "x"⟩, ⟨"b", "y"⟩, ⟨"c", "z"⟩] (by decide) rfl (by decide) (by decide),
      loadGo_capped (fun _ => FetchR.ok [⟨"a", "x"⟩, ⟨"b", "y"⟩, ⟨"c", "z"⟩]) (0 + 1)
        (absorb [] [⟨"a", "x"⟩, ⟨"b", "y"⟩, ⟨"c", "z"⟩]).seen
        ([] ++ (absorb [] [⟨"a", "x"⟩, ⟨"b", "y"⟩, ⟨"c", "z"⟩]).fresh) 2 (by decide)]
    rfl

theorem runCrawler_ok (process : GroupInfo → Except String (Option GroupSuccess))
    (ids : List String) (groups : List GroupInfo)
    (hsel : groups.filter (fun g => ids.contains g.id) ≠ []) :
    runCrawler process ids groups
      = .ok ⟨(groups.filter (fun g => ids.contains g.id)).length,
          ((groups.filter (fun g => ids.contains g.id)).filterMap
            (procEntry process)).countP entryNoError,
          (groups.filter (fun g => ids.contains g.id)).length
            - ((groups.filter (fun g => ids.contains g.id)).filterMap
                (procEntry process)).countP entryNoError,
          (groups.filter (fun g => ids.contains g.id)).filterMap (procEntry process)⟩ := by
  unfold runCrawler
  rw [if_neg (by simpa [List.isEmpty_iff] using hsel)]

/-- C6: runCrawler rejects an empty selection with the typed failure;
otherwise it returns a summary whose group count is the number of selected
groups, whose successful and failed counts always sum to it, and whose
results list is exactly the selected groups processed in order with every
thrown error captured as that group's entry carrying the error message
(later groups still processed); in particular one group failing with a
non-empty error message and one succeeding yields one failure and one
success. -/
theorem runCrawler_spec (process : GroupInfo → Except String (Option GroupSuccess))
    (ids : List String) (groups : List GroupInfo) :
    (groups.filter (fun g => ids.contains g.id) = [] →
      runCrawler process ids groups = .error "No valid groups found for selected IDs")
    ∧ (groups.filter (fun g => ids.contains g.id) ≠ [] →
        ∃ s, runCrawler process ids groups = .ok s
          ∧ s.totalGroups = (groups.filter (fun g => ids.contains g.id)).length
          ∧ s.successful + s.failed = s.totalGroups
          ∧ s.results = (groups.filter (fun g => ids.contains g.id)).filterMap
              (procEntry process)
          ∧ s.successful = s.results.countP entryNoError)
    ∧ (∀ A B r e, groups.filter (fun g => ids.contains g.id) = [A, B] →
        process A = .error e → truthy e = true → process B = .ok (some r) →
        runCrawler process ids groups
          = .ok ⟨2, 1, 1, [.failure A.name e, .success r]⟩) := by
  refine ⟨?_, ?_, ?_⟩
  · intro hsel
    unfold runCrawler
    rw [if_pos (by rw [List.isEmpty_iff]; exact hsel)]
  · intro hsel
    refine ⟨_, runCrawler_ok process ids groups hsel, rfl, ?_, rfl, rfl⟩
    have hc : ((groups.filter (fun g => ids.contains g.id)).filterMap
        (procEntry process)).countP entryNoError
          ≤ (groups.filter (fun g => ids.contains g.id)).length :=
      le_trans (List.countP_le_length _) (List.length_filterMap_le _ _)
    simp only []
    omega
  · intro A B r e hsel hA hte hB
    rw [runCrawler_ok process ids groups (by rw [hsel]; simp), hsel]
    simp [procEntry, hA, hB, entryNoError, hte, List.countP_cons]

/-- C6 witness: group A fails with a non-transient error and zero
accumulated messages, group B succeeds. -/
theorem runCrawler_spec_witness :
    runCrawler
        (fun g => if g.id = "idA" then .error "boom" else .ok (some ⟨"B", 5, 3⟩))
        ["idA", "idB"] [⟨"idA", "A"⟩, ⟨"idB", "B"⟩]
      = .ok ⟨2, 1, 1, [.failure "A" "boom", .success ⟨"B", 5, 3⟩]⟩ := by
  have h := (runCrawler_spec
      (fun g => if g.id = "idA" then .error "boom" else .ok (some ⟨"B", 5, 3⟩))
      ["idA", "idB"] [⟨"idA", "A"⟩, ⟨"idB", "B"⟩]).2.2
      ⟨"idA", "A"⟩ ⟨"idB", "B"⟩ ⟨"B", 5, 3⟩ "boom" (by decide) rfl (by decide) rfl
  exact h

/-- C8 witness: three raw messages with timestamps 5, 0 and 2 yield two
enriched messages with dense serial numbers. -/
theorem enrichMessages_spec_witness :
    (enrichMessages
        ([{ id := .str "a", timestamp := .num 5 },
          { id := .str "b", timestamp := .num 0 },
          { id := .str "c", timestamp := .num 2 }] : List Msg) []).map
      (fun e => e.serialNumber) = [1, 2] := by
  have h := (enrichMessages_spec
      ([{ id := .str "a", timestamp := .num 5 },
        { id := .str "b", timestamp := .num 0 },
        { id := .str "c", timestamp := .num 2 }] : List Msg) []).2.2.2.2.2
  rw [h]
  rfl

/-- C10 witness: a run whose only page is empty, against cap 1 and page
bound 0, returns a list within the cap bound. -/
theorem loadAllMessages_cap_witness :
    ([] : List LMsg).length ≤ 1 - 1 + 0 := by
  have heval : loadAllMessages (fun _ => FetchR.ok ([] : List LMsg)) 1
      = ⟨.ok [], 1, [0]⟩ := by
    rw [loadAllMessages,
      loadGo_empty (fun _ => FetchR.ok ([] : List LMsg)) 0 [] [] 1 (by decide) rfl]
    rfl
  exact (loadAllMessages_cap (fun _ => FetchR.ok ([] : List LMsg)) 1).2.1 0
    (fun i p hp => by
      injection hp with h
      rw [← h]
      exact Nat.le.refl) [] (by rw [heval])

end WC
